import Mathlib

/-!
Verification of the mapreduce-llm core (token-aware chunking and the
map/cache/reduce orchestration pipeline in `internal/cli`).

Texts are modelled as `List Char`.  The external sub-word counting
capability (`tokenizer.Encode` followed by `len`) is modelled as an
abstract function `cnt : List Char → Nat`; theorems about the chunker
quantify over it, and concrete instances (such as the per-character
counter `fun s => s.length`) are used for witnesses and counterexamples.
-/

namespace MapReduce

/-- Whitespace test used by Go's `strings.Fields`, `strings.TrimSpace`
(`unicode.IsSpace`), modelled on the ASCII range that the repository's
data exercises. -/
def isSpaceChar (c : Char) : Bool :=
  c = ' ' || c = '\t' || c = '\n' || c = '\x0b' || c = '\x0c' || c = '\r'

/-- Go `strings.Split(s, "\n")`: the empty string yields one empty piece,
and every newline separates two pieces. -/
def splitNewline : List Char → List (List Char)
  | [] => [[]]
  | c :: rest =>
    if c = '\n' then [] :: splitNewline rest
    else
      match splitNewline rest with
      | [] => [[c]]
      | l :: ls => (c :: l) :: ls

/-- Accumulator-style worker for `fields`: `acc` holds the reversed
characters of the word currently being read. -/
def fieldsAux : List Char → List Char → List (List Char)
  | acc, [] => if acc = [] then [] else [acc.reverse]
  | acc, c :: rest =>
    if isSpaceChar c then
      if acc = [] then fieldsAux [] rest
      else acc.reverse :: fieldsAux [] rest
    else fieldsAux (c :: acc) rest

/-- Go `strings.Fields`: the maximal whitespace-free runs of `s`. -/
def fields (s : List Char) : List (List Char) :=
  fieldsAux [] s

/-- Go `strings.TrimSuffix(s, "\n")`: drop one trailing newline when
present. -/
def trimSuffixNewline (s : List Char) : List Char :=
  if s.getLast? = some '\n' then s.dropLast else s

/-- Go `strings.TrimSpace`: drop leading and trailing whitespace. -/
def trimSpace (s : List Char) : List Char :=
  ((s.dropWhile isSpaceChar).reverse.dropWhile isSpaceChar).reverse

/-- Go `strings.Join(l, "\n")`, the separator with which the spec rejoins
chunker output when checking content preservation. -/
def joinNewline : List (List Char) → List Char
  | [] => []
  | [l] => l
  | l :: ls => l ++ '\n' :: joinNewline ls

/-- State of the inner word-splitting loop of `splitIntoTokenChunks`
(variables `chunks`, `wordChunk`, `wordTokens`). -/
structure WordAcc where
  chunks : List (List Char)
  wordChunk : List Char
  wordTokens : Nat
deriving DecidableEq

/-- One iteration of the `for _, word := range words` loop in
`splitIntoTokenChunks`. -/
def wordStep (cnt : List Char → Nat) (maxTok : Nat) (acc : WordAcc)
    (word : List Char) : WordAcc :=
  let wordWithSpace := word ++ [' ']
  let wordTokenCount := cnt wordWithSpace
  if acc.wordTokens + wordTokenCount > maxTok ∧ acc.wordChunk ≠ [] then
    { chunks := acc.chunks ++ [trimSpace acc.wordChunk]
      wordChunk := wordWithSpace
      wordTokens := wordTokenCount }
  else
    { chunks := acc.chunks
      wordChunk := acc.wordChunk ++ wordWithSpace
      wordTokens := acc.wordTokens + wordTokenCount }

/-- State of the outer line loop of `splitIntoTokenChunks`
(variables `chunks`, `currentChunk`, `currentTokens`). -/
structure LineAcc where
  chunks : List (List Char)
  cur : List Char
  curTokens : Nat
deriving DecidableEq

/-- The word-splitting fallback of `splitIntoTokenChunks` for a line whose
own token count exceeds the budget (the body of the
`if lineTokenCount > maxTokensPerChunk` block): run the greedy word loop
over `strings.Fields(line)` starting from the chunks accumulated so far,
then seed the next top-level buffer with the trailing word remainder. -/
def oversizedFix (cnt : List Char → Nat) (maxTok : Nat) (acc1 : LineAcc)
    (line : List Char) : LineAcc :=
  let w := (fields line).foldl (wordStep cnt maxTok) ⟨acc1.chunks, [], 0⟩
  if w.wordChunk ≠ [] then
    let newCur := trimSpace w.wordChunk ++ ['\n']
    { chunks := w.chunks, cur := newCur, curTokens := cnt newCur }
  else
    { chunks := w.chunks, cur := acc1.cur, curTokens := acc1.curTokens }

/-- One iteration of the `for _, line := range lines` loop in
`splitIntoTokenChunks`: the greedy append-or-flush step followed by the
oversized-line word-splitting fallback. -/
def lineStep (cnt : List Char → Nat) (maxTok : Nat) (acc : LineAcc)
    (line : List Char) : LineAcc :=
  let lineWithNewline := line ++ ['\n']
  let lineTokenCount := cnt lineWithNewline
  let acc1 : LineAcc :=
    if acc.curTokens + lineTokenCount > maxTok ∧ acc.cur ≠ [] then
      { chunks := acc.chunks ++ [trimSuffixNewline acc.cur]
        cur := lineWithNewline
        curTokens := lineTokenCount }
    else
      { chunks := acc.chunks
        cur := acc.cur ++ lineWithNewline
        curTokens := acc.curTokens + lineTokenCount }
  if lineTokenCount > maxTok then oversizedFix cnt maxTok acc1 line
  else acc1

/-- The chunker `splitIntoTokenChunks(text, maxTokensPerChunk)`,
parameterized by the token-counting capability `cnt`.  (Tokenizer
initialization, the one failure mode of the Go function, is outside the
pure model: a Lean `cnt` is always available.) -/
def splitIntoTokenChunks (cnt : List Char → Nat) (text : List Char)
    (maxTok : Nat) : List (List Char) :=
  let lines := splitNewline text
  let acc := lines.foldl (lineStep cnt maxTok) ⟨[], [], 0⟩
  if acc.cur ≠ [] then acc.chunks ++ [trimSuffixNewline acc.cur]
  else acc.chunks

/-- The per-character token counter, a concrete instance of the counting
capability used for witnesses and counterexamples. -/
def charCount (s : List Char) : Nat := s.length

/-! ### The orchestrator: `processChunk` and `ProcessWithClient`

The run is modelled as a pure state transformer.  The file system is the
state the orchestrator touches for one document; the generation
capability is an oracle giving each chunk index its response; write
failures are oracle-driven (the Go code treats result-file write failures
as non-fatal).  `estimateTokens` output and all printing are reporting
only and are not modelled; `os.MkdirAll` is modelled as succeeding.  The
`errgroup` fan-out is sequentialized: every task's effect is computed,
and the error surfaced by `Wait` is the first failed task's error in
index order. -/

/-- Outcome of one generation-capability call: either an error, or a
response whose choices carry message contents
(`res.Choices[k].Message.Content`). -/
inductive GenResult where
  | failure (msg : String)
  | success (choices : List (List Char))
deriving DecidableEq

/-- What one chunk task did: the value returned to the caller, the number
of generation calls made, and the chunk/result files written. -/
structure ChunkOutcome where
  ret : Except String (List Char)
  genCalls : Nat
  chunkWrite : Option (List Char)
  resultWrite : Option (List Char)

/-- The function processChunk, for chunk index `i` (0-based here; file
names and error messages use `i+1` exactly as the Go code does): answer from the
result file when it exists; otherwise write the chunk file, call the
generation capability, validate the response, and best-effort cache the
fresh result (a failed cache write is only logged). -/
def processChunk (i : Nat) (cache : Option (List Char))
    (chunkWriteOk : Bool) (resultWriteOk : Bool) (gen : GenResult)
    (chunk : List Char) : ChunkOutcome :=
  match cache with
  | some existing => ⟨.ok existing, 0, none, none⟩
  | none =>
    if chunkWriteOk then
      match gen with
      | .failure msg =>
        ⟨.error ("failed to generate chat completion for chunk " ++
          Nat.repr (i + 1) ++ ": " ++ msg), 1, some chunk, none⟩
      | .success choices =>
        match choices with
        | content :: _ =>
          if content ≠ [] then
            ⟨.ok content, 1, some chunk,
              if resultWriteOk then some content else none⟩
          else
            ⟨.error ("no content in response for chunk " ++
              Nat.repr (i + 1)), 1, some chunk, none⟩
        | [] =>
          ⟨.error ("no content in response for chunk " ++
            Nat.repr (i + 1)), 1, some chunk, none⟩
    else
      ⟨.error ("failed to write chunk " ++ Nat.repr (i + 1)), 0, none, none⟩

/-- The file-system state the orchestrator touches for one document: the
document body at the input path, the per-index result and chunk files in
the chunk directory, and the combined-results file. -/
structure FS where
  doc : Option (List Char)
  resultFile : Nat → Option (List Char)
  chunkFile : Nat → Option (List Char)
  combined : Option (List Char)

/-- Run configuration: the interactive-confirmation flag and the user's
reply, and which writes succeed. -/
structure RunConfig where
  requireConfirmation : Bool
  userResponse : List Char
  chunkWriteOk : Nat → Bool
  resultWriteOk : Nat → Bool
  combinedWriteOk : Bool

/-- Result of a whole `ProcessWithClient` run. -/
structure RunOutcome where
  ret : Except String Unit
  genCalls : Nat
  fs : FS

/-- The confirmation test of `ProcessWithClient`:
`strings.ToLower(strings.TrimSpace(response))` equals "yes" or "y"
(ASCII lowering; the prompt's expected replies are ASCII). -/
def affirmative (response : List Char) : Bool :=
  let t := (trimSpace response).map Char.toLower
  t == "yes".data || t == "y".data

/-- The task spawned for chunk `i` of a run (the `g.Go` closure body up
to recording its result). -/
def taskOutcome (cfg : RunConfig) (gen : Nat → GenResult) (fs : FS)
    (chunks : List (List Char)) (i : Nat) : ChunkOutcome :=
  processChunk i (fs.resultFile i) (cfg.chunkWriteOk i)
    (cfg.resultWriteOk i) (gen i) (chunks.getD i [])

/-- All chunk tasks of a run, in index order. -/
def chunkOutcomes (cfg : RunConfig) (gen : Nat → GenResult) (fs : FS)
    (chunks : List (List Char)) : List ChunkOutcome :=
  (List.range chunks.length).map (taskOutcome cfg gen fs chunks)

/-- The error `errgroup.Wait` surfaces: the first failed task's error. -/
def firstError (ocs : List ChunkOutcome) : Option String :=
  ocs.findSome? fun oc =>
    match oc.ret with
    | .error e => some e
    | .ok _ => none

/-- Total number of generation-capability calls made during a run. -/
def totalGenCalls (ocs : List ChunkOutcome) : Nat :=
  (ocs.map ChunkOutcome.genCalls).sum

/-- Apply the chunk/result-file writes of all tasks to the file system;
each task owns its own index slot and nothing is ever deleted. -/
def fsAfterTasks (fs : FS) (ocs : List ChunkOutcome) : FS :=
  { fs with
    resultFile := fun j =>
      match (ocs[j]?).bind ChunkOutcome.resultWrite with
      | some c => some c
      | none => fs.resultFile j
    chunkFile := fun j =>
      match (ocs[j]?).bind ChunkOutcome.chunkWrite with
      | some c => some c
      | none => fs.chunkFile j }

/-- The in-memory results slice concatenated in index order with no
separators (meaningful when every task succeeded). -/
def combinedText (ocs : List ChunkOutcome) : List Char :=
  (ocs.map fun oc => oc.ret.toOption.getD []).flatten

/-- The orchestrator `ProcessWithClient(ctx, client, model, prompt,
filePath, requireConfirmation)`: read the document, chunk it with the
hard-coded budget of 2000 units, optionally ask for confirmation (a
non-affirmative reply returns nil), run one task per chunk, fail if any
task failed, otherwise write the combined results (overwriting). -/
def ProcessWithClient (cnt : List Char → Nat) (cfg : RunConfig)
    (gen : Nat → GenResult) (fs : FS) : RunOutcome :=
  match fs.doc with
  | none => ⟨.error "failed to read file", 0, fs⟩
  | some text =>
    let chunks := splitIntoTokenChunks cnt text 2000
    if cfg.requireConfirmation ∧ ¬ affirmative cfg.userResponse then
      ⟨.ok (), 0, fs⟩
    else
      let ocs := chunkOutcomes cfg gen fs chunks
      let fs2 := fsAfterTasks fs ocs
      match firstError ocs with
      | some e =>
        ⟨.error ("failed to wait for all subtasks to complete: " ++ e),
          totalGenCalls ocs, fs2⟩
      | none =>
        if cfg.combinedWriteOk then
          ⟨.ok (), totalGenCalls ocs,
            { fs2 with combined := some (combinedText ocs) }⟩
        else
          ⟨.error "failed to write combined results",
            totalGenCalls ocs, fs2⟩

/-- A small concrete file system used to instantiate run-level theorems:
one readable document, no cached files, no combined output. -/
def demoFS : FS :=
  ⟨some "abc".data, fun _ => none, fun _ => none, none⟩

/-- A concrete configuration: no confirmation required, all writes
succeed. -/
def demoCfg : RunConfig :=
  ⟨false, [], fun _ => true, fun _ => true, true⟩

/-! ### Proof-side measures and invariants over chunker states -/

/-- Words of the chunks emitted so far, followed by the words of the
open word buffer. -/
def wordsOfWordAcc (w : WordAcc) : List (List Char) :=
  (w.chunks.map fields).flatten ++ fields w.wordChunk

/-- Words of the chunks emitted so far, followed by the words of the
open line buffer. -/
def wordsOfLineAcc (acc : LineAcc) : List (List Char) :=
  (acc.chunks.map fields).flatten ++ fields acc.cur

/-- Loop invariant: the open word buffer is empty or ends in a space. -/
def wordChunkOK (w : WordAcc) : Prop :=
  w.wordChunk = [] ∨ ∃ t, w.wordChunk = t ++ [' ']

/-- Loop invariant: the open line buffer is empty or ends in a newline. -/
def curOK (acc : LineAcc) : Prop :=
  acc.cur = [] ∨ ∃ t, acc.cur = t ++ ['\n']

/-- An additive instance of the counting capability: a per-character
weight, summed over the text.  (The per-character counter `charCount` is
the instance with weight one everywhere.) -/
def addCount (wt : Char → Nat) (s : List Char) : Nat :=
  (s.map wt).sum

/-- Budget invariant for the inner word loop: emitted chunks fit the
budget, the running count is the additive count of the open buffer, and a
nonempty open buffer fits the budget. -/
def wordCountInv (wt : Char → Nat) (maxTok : Nat) (w : WordAcc) : Prop :=
  (∀ ch ∈ w.chunks, addCount wt ch ≤ maxTok) ∧
    w.wordTokens = addCount wt w.wordChunk ∧
    (w.wordChunk ≠ [] → w.wordTokens ≤ maxTok) ∧
    wordChunkOK w

/-- Budget invariant for the outer line loop. -/
def lineCountInv (wt : Char → Nat) (maxTok : Nat) (acc : LineAcc) : Prop :=
  (∀ ch ∈ acc.chunks, addCount wt ch ≤ maxTok) ∧
    acc.curTokens = addCount wt acc.cur ∧
    (acc.cur ≠ [] → acc.curTokens ≤ maxTok)

/-! ### Word-level facts about `fields` -/

@[simp] theorem fields_nil : fields [] = [] := rfl

theorem fieldsAux_append_space {c : Char} (hc : isSpaceChar c = true)
    (ys : List Char) :
    ∀ (xs acc : List Char),
      fieldsAux acc (xs ++ c :: ys) = fieldsAux acc xs ++ fieldsAux [] ys := by
  intro xs
  induction xs with
  | nil =>
    intro acc
    by_cases h : acc = [] <;> simp [fieldsAux, hc, h]
  | cons x xs ih =>
    intro acc
    by_cases hx : isSpaceChar x
    · by_cases h : acc = [] <;> simp [fieldsAux, hx, h, ih]
    · simp [fieldsAux, hx, ih]

/-- Splitting `fields` at any whitespace character. -/
theorem fields_append_space {c : Char} (hc : isSpaceChar c = true)
    (xs ys : List Char) :
    fields (xs ++ c :: ys) = fields xs ++ fields ys :=
  fieldsAux_append_space hc ys xs []

/-- A trailing whitespace character does not change the words. -/
theorem fields_concat_space {c : Char} (hc : isSpaceChar c = true)
    (xs : List Char) : fields (xs ++ [c]) = fields xs := by
  have h := fields_append_space hc xs []
  simpa [fields, fieldsAux] using h

/-- A leading whitespace character does not change the words. -/
theorem fields_cons_space {c : Char} (hc : isSpaceChar c = true)
    (ys : List Char) : fields (c :: ys) = fields ys := by
  simp [fields, fieldsAux, hc]

theorem fields_allspace {s : List Char}
    (h : ∀ c ∈ s, isSpaceChar c = true) : fields s = [] := by
  induction s with
  | nil => rfl
  | cons c rest ih =>
    have hc : isSpaceChar c = true := h c (by simp)
    rw [fields_cons_space hc]
    exact ih fun d hd => h d (by simp [hd])

theorem fields_append_allspace {sp : List Char}
    (h : ∀ c ∈ sp, isSpaceChar c = true) (xs : List Char) :
    fields (xs ++ sp) = fields xs := by
  cases sp with
  | nil => simp
  | cons c sp' =>
    have h2 : fields sp' = [] :=
      fields_allspace fun d hd => h d (List.mem_cons_of_mem _ hd)
    rw [fields_append_space (h c (List.mem_cons_self _ _)) xs sp', h2]
    simp

theorem fields_dropWhile_space (s : List Char) :
    fields (s.dropWhile isSpaceChar) = fields s := by
  induction s with
  | nil => rfl
  | cons c rest ih =>
    by_cases hc : isSpaceChar c
    · rw [List.dropWhile_cons_of_pos hc, ih, fields_cons_space hc]
    · rw [List.dropWhile_cons_of_neg hc]

theorem fields_trimTrailing (t : List Char) :
    fields ((t.reverse.dropWhile isSpaceChar).reverse) = fields t := by
  have hsplit :
      t = (t.reverse.dropWhile isSpaceChar).reverse ++
        (t.reverse.takeWhile isSpaceChar).reverse := by
    conv_lhs => rw [← List.reverse_reverse t,
      ← List.takeWhile_append_dropWhile (p := isSpaceChar) (l := t.reverse)]
    rw [List.reverse_append]
  conv_rhs => rw [hsplit]
  rw [fields_append_allspace]
  intro c hc
  exact List.mem_takeWhile_imp (List.mem_reverse.mp hc)

theorem fields_trimSpace (s : List Char) : fields (trimSpace s) = fields s := by
  unfold trimSpace
  rw [fields_trimTrailing, fields_dropWhile_space]

theorem fields_trimSuffixNewline (s : List Char) :
    fields (trimSuffixNewline s) = fields s := by
  induction s using List.reverseRecOn with
  | nil => rfl
  | append_singleton l a =>
    unfold trimSuffixNewline
    by_cases ha : a = '\n'
    · subst ha
      rw [if_pos (by simp), List.dropLast_concat,
        fields_concat_space (by decide) l]
    · rw [if_neg (by simp [ha])]

theorem fieldsAux_no_space {s : List Char}
    (h : ∀ c ∈ s, isSpaceChar c = false) :
    ∀ acc, fieldsAux acc s =
      if acc.reverse ++ s = [] then [] else [acc.reverse ++ s] := by
  induction s with
  | nil =>
    intro acc
    by_cases hacc : acc = [] <;> simp [fieldsAux, hacc]
  | cons c rest ih =>
    intro acc
    have hc : isSpaceChar c = false := h c (by simp)
    rw [show fieldsAux acc (c :: rest) = fieldsAux (c :: acc) rest by
      simp [fieldsAux, hc]]
    rw [ih (fun d hd => h d (by simp [hd])) (c :: acc)]
    simp

/-- The words of a nonempty whitespace-free string: the string itself. -/
theorem fields_word {w : List Char} (hne : w ≠ [])
    (h : ∀ c ∈ w, isSpaceChar c = false) : fields w = [w] := by
  rw [fields, fieldsAux_no_space h []]
  simp [hne]

theorem fieldsAux_mem {s : List Char} :
    ∀ {acc : List Char}, (∀ c ∈ acc, isSpaceChar c = false) →
      ∀ w ∈ fieldsAux acc s, w ≠ [] ∧ ∀ c ∈ w, isSpaceChar c = false := by
  induction s with
  | nil =>
    intro acc hacc w hw
    by_cases h : acc = []
    · simp [fieldsAux, h] at hw
    · simp [fieldsAux, h] at hw
      subst hw
      refine ⟨by simp [h], fun c hc => hacc c (List.mem_reverse.mp hc)⟩
  | cons c rest ih =>
    intro acc hacc w hw
    by_cases hc : isSpaceChar c
    · by_cases h : acc = []
      · rw [show fieldsAux acc (c :: rest) = fieldsAux [] rest by
          simp [fieldsAux, hc, h]] at hw
        exact ih (by simp) w hw
      · rw [show fieldsAux acc (c :: rest) =
            acc.reverse :: fieldsAux [] rest by simp [fieldsAux, hc, h]] at hw
        rcases List.mem_cons.mp hw with hw | hw
        · subst hw
          refine ⟨by simp [h], fun d hd => hacc d (List.mem_reverse.mp hd)⟩
        · exact ih (by simp) w hw
    · rw [show fieldsAux acc (c :: rest) = fieldsAux (c :: acc) rest by
        simp [fieldsAux, hc]] at hw
      refine ih ?_ w hw
      intro d hd
      rcases List.mem_cons.mp hd with rfl | hd
      · exact eq_false_of_ne_true hc
      · exact hacc d hd

/-- Every word produced by `fields` is nonempty and whitespace-free. -/
theorem fields_mem {s w : List Char} (hw : w ∈ fields s) :
    w ≠ [] ∧ ∀ c ∈ w, isSpaceChar c = false :=
  fieldsAux_mem (by simp) w hw

/-! ### `splitNewline` and `joinNewline` -/

theorem splitNewline_ne_nil (s : List Char) : splitNewline s ≠ [] := by
  cases s with
  | nil => simp [splitNewline]
  | cons c rest =>
    by_cases hc : c = '\n'
    · simp [splitNewline, hc]
    · simp only [splitNewline, if_neg hc]
      cases splitNewline rest <;> simp

theorem joinNewline_splitNewline (s : List Char) :
    joinNewline (splitNewline s) = s := by
  induction s with
  | nil => rfl
  | cons c rest ih =>
    by_cases hc : c = '\n'
    · subst hc
      rw [show splitNewline ('\n' :: rest) = [] :: splitNewline rest by
        simp [splitNewline]]
      obtain ⟨l, ls, hls⟩ : ∃ l ls, splitNewline rest = l :: ls := by
        cases h : splitNewline rest with
        | nil => exact absurd h (splitNewline_ne_nil rest)
        | cons l ls => exact ⟨l, ls, rfl⟩
      rw [hls] at ih ⊢
      simpa [joinNewline] using ih
    · rw [show splitNewline (c :: rest) =
          match splitNewline rest with
          | [] => [[c]]
          | l :: ls => (c :: l) :: ls by simp [splitNewline, hc]]
      obtain ⟨l, ls, hls⟩ : ∃ l ls, splitNewline rest = l :: ls := by
        cases h : splitNewline rest with
        | nil => exact absurd h (splitNewline_ne_nil rest)
        | cons l ls => exact ⟨l, ls, rfl⟩
      rw [hls] at ih ⊢
      cases ls with
      | nil => simpa [joinNewline] using congrArg (c :: ·) ih
      | cons l2 ls2 => simpa [joinNewline] using congrArg (c :: ·) ih

theorem fields_joinNewline (l : List (List Char)) :
    fields (joinNewline l) = (l.map fields).flatten := by
  induction l with
  | nil => rfl
  | cons x ls ih =>
    cases ls with
    | nil => simp [joinNewline, fields]
    | cons y ls' =>
      rw [show joinNewline (x :: y :: ls') = x ++ '\n' :: joinNewline (y :: ls')
          from rfl,
        fields_append_space (by decide) x, ih]
      simp

/-! ### The word sequence recorded by chunker states -/

theorem wordStep_words (cnt : List Char → Nat) (maxTok : Nat) (w : WordAcc)
    (word : List Char) (hne : word ≠ [])
    (hfree : ∀ c ∈ word, isSpaceChar c = false) (hok : wordChunkOK w) :
    wordsOfWordAcc (wordStep cnt maxTok w word) = wordsOfWordAcc w ++ [word] ∧
      wordChunkOK (wordStep cnt maxTok w word) ∧
      (wordStep cnt maxTok w word).wordChunk ≠ [] := by
  have hws : fields (word ++ [' ']) = [word] := by
    rw [fields_concat_space (by decide), fields_word hne hfree]
  by_cases hcond : w.wordTokens + cnt (word ++ [' ']) > maxTok ∧ w.wordChunk ≠ []
  · have hstep : wordStep cnt maxTok w word =
        { chunks := w.chunks ++ [trimSpace w.wordChunk]
          wordChunk := word ++ [' ']
          wordTokens := cnt (word ++ [' ']) } := by
      simp only [wordStep, if_pos hcond]
    rw [hstep]
    refine ⟨?_, Or.inr ⟨word, rfl⟩, by simp⟩
    simp [wordsOfWordAcc, hws, fields_trimSpace]
  · have hstep : wordStep cnt maxTok w word =
        { chunks := w.chunks
          wordChunk := w.wordChunk ++ (word ++ [' '])
          wordTokens := w.wordTokens + cnt (word ++ [' ']) } := by
      simp only [wordStep, if_neg hcond]
    rw [hstep]
    refine ⟨?_, Or.inr ⟨w.wordChunk ++ word, by simp⟩, by simp⟩
    rcases hok with hnil | ⟨t, ht⟩
    · simp [wordsOfWordAcc, hnil, hws]
    · have hsplit : w.wordChunk ++ (word ++ [' ']) =
          t ++ ' ' :: (word ++ [' ']) := by simp [ht]
      have hL : fields (w.wordChunk ++ (word ++ [' '])) =
          fields t ++ [word] := by
        rw [hsplit, fields_append_space (by decide : isSpaceChar ' ' = true),
          hws]
      have hR : fields w.wordChunk = fields t := by
        rw [ht, fields_concat_space (by decide : isSpaceChar ' ' = true)]
      simp [wordsOfWordAcc, hL, hR]

theorem foldl_wordStep_words (cnt : List Char → Nat) (maxTok : Nat) :
    ∀ (ws : List (List Char)) (w : WordAcc),
      (∀ x ∈ ws, x ≠ [] ∧ ∀ c ∈ x, isSpaceChar c = false) →
      wordChunkOK w →
      wordsOfWordAcc (ws.foldl (wordStep cnt maxTok) w) =
          wordsOfWordAcc w ++ ws ∧
        wordChunkOK (ws.foldl (wordStep cnt maxTok) w) ∧
        (ws ≠ [] → (ws.foldl (wordStep cnt maxTok) w).wordChunk ≠ []) := by
  intro ws
  induction ws with
  | nil =>
    intro w _ hok
    exact ⟨by simp, hok, by simp⟩
  | cons x ws ih =>
    intro w hmem hok
    obtain ⟨hx, hsok, hsne⟩ := wordStep_words cnt maxTok w x
      (hmem x (by simp)).1 (hmem x (by simp)).2 hok
    obtain ⟨ih1, ih2, ih3⟩ := ih (wordStep cnt maxTok w x)
      (fun y hy => hmem y (by simp [hy])) hsok
    refine ⟨?_, ih2, ?_⟩
    · rw [List.foldl_cons, ih1, hx]
      simp
    · intro _
      cases ws with
      | nil => simpa using hsne
      | cons y ys => exact ih3 (by simp)

theorem oversizedFix_words (cnt : List Char → Nat) (maxTok : Nat)
    (acc1 : LineAcc) (line : List Char)
    (hcur : ∃ t, acc1.cur = t ++ ['\n'])
    (hfields : fields acc1.cur = fields line) :
    wordsOfLineAcc (oversizedFix cnt maxTok acc1 line) =
        (acc1.chunks.map fields).flatten ++ fields line ∧
      curOK (oversizedFix cnt maxTok acc1 line) := by
  obtain ⟨hw1, hw2, hw3⟩ := foldl_wordStep_words cnt maxTok (fields line)
    ⟨acc1.chunks, [], 0⟩ (fun x hx => fields_mem hx) (Or.inl rfl)
  simp only [oversizedFix]
  by_cases hne : ((fields line).foldl (wordStep cnt maxTok)
      ⟨acc1.chunks, [], 0⟩).wordChunk ≠ []
  · rw [if_pos hne]
    constructor
    · simp only [wordsOfLineAcc,
        fields_concat_space (by decide : isSpaceChar '\n' = true),
        fields_trimSpace]
      simpa [wordsOfWordAcc, fields, fieldsAux] using hw1
    · exact Or.inr ⟨_, rfl⟩
  · rw [if_neg hne]
    push_neg at hne
    have hwords : fields line = [] := by
      by_contra hfl
      exact (hw3 hfl) hne
    constructor
    · simp only [wordsOfLineAcc]
      have hch : ((fields line).foldl (wordStep cnt maxTok)
          ⟨acc1.chunks, [], 0⟩).chunks = acc1.chunks := by
        rw [hwords]
        rfl
      rw [hch, hfields, hwords]
    · rcases hcur with ⟨t, ht⟩
      exact Or.inr ⟨t, ht⟩

theorem lineStep_words (cnt : List Char → Nat) (maxTok : Nat) (acc : LineAcc)
    (line : List Char) (hok : curOK acc) :
    wordsOfLineAcc (lineStep cnt maxTok acc line) =
        wordsOfLineAcc acc ++ fields line ∧
      curOK (lineStep cnt maxTok acc line) := by
  have hlwn : fields (line ++ ['\n']) = fields line :=
    fields_concat_space (by decide) line
  by_cases hbig : cnt (line ++ ['\n']) > maxTok
  · -- oversized line: the word-splitting fallback runs on the greedy result
    by_cases hc : acc.cur = []
    · have hcond : ¬(acc.curTokens + cnt (line ++ ['\n']) > maxTok ∧
          acc.cur ≠ []) := by simp [hc]
      have hstep : lineStep cnt maxTok acc line =
          oversizedFix cnt maxTok
            { chunks := acc.chunks
              cur := acc.cur ++ (line ++ ['\n'])
              curTokens := acc.curTokens + cnt (line ++ ['\n']) } line := by
        simp only [lineStep, if_neg hcond, if_pos hbig]
      rw [hstep]
      obtain ⟨h1, h2⟩ := oversizedFix_words cnt maxTok
        { chunks := acc.chunks
          cur := acc.cur ++ (line ++ ['\n'])
          curTokens := acc.curTokens + cnt (line ++ ['\n']) } line
        ⟨acc.cur ++ line, by simp⟩ (by simp [hc, hlwn])
      refine ⟨?_, h2⟩
      rw [h1]
      simp [wordsOfLineAcc, hc, fields, fieldsAux]
    · have hcond : acc.curTokens + cnt (line ++ ['\n']) > maxTok ∧
          acc.cur ≠ [] := ⟨by omega, hc⟩
      have hstep : lineStep cnt maxTok acc line =
          oversizedFix cnt maxTok
            { chunks := acc.chunks ++ [trimSuffixNewline acc.cur]
              cur := line ++ ['\n']
              curTokens := cnt (line ++ ['\n']) } line := by
        simp only [lineStep, if_pos hcond, if_pos hbig]
      rw [hstep]
      obtain ⟨h1, h2⟩ := oversizedFix_words cnt maxTok
        { chunks := acc.chunks ++ [trimSuffixNewline acc.cur]
          cur := line ++ ['\n']
          curTokens := cnt (line ++ ['\n']) } line
        ⟨line, rfl⟩ (by simp [hlwn])
      refine ⟨?_, h2⟩
      rw [h1]
      simp [wordsOfLineAcc, fields_trimSuffixNewline]
  · -- normal path: the greedy append-or-flush step only
    by_cases hcond : acc.curTokens + cnt (line ++ ['\n']) > maxTok ∧
        acc.cur ≠ []
    · have hstep : lineStep cnt maxTok acc line =
          { chunks := acc.chunks ++ [trimSuffixNewline acc.cur]
            cur := line ++ ['\n']
            curTokens := cnt (line ++ ['\n']) } := by
        simp only [lineStep, if_pos hcond, if_neg hbig]
      rw [hstep]
      refine ⟨?_, Or.inr ⟨line, rfl⟩⟩
      simp [wordsOfLineAcc, fields_trimSuffixNewline, hlwn]
    · have hstep : lineStep cnt maxTok acc line =
          { chunks := acc.chunks
            cur := acc.cur ++ (line ++ ['\n'])
            curTokens := acc.curTokens + cnt (line ++ ['\n']) } := by
        simp only [lineStep, if_neg hcond, if_neg hbig]
      rw [hstep]
      refine ⟨?_, Or.inr ⟨acc.cur ++ line, by simp⟩⟩
      rcases hok with hnil | ⟨t, ht⟩
      · simp [wordsOfLineAcc, hnil, hlwn]
      · have hsplit : acc.cur ++ (line ++ ['\n']) =
            t ++ '\n' :: (line ++ ['\n']) := by simp [ht]
        have hL : fields (acc.cur ++ (line ++ ['\n'])) =
            fields t ++ fields line := by
          rw [hsplit, fields_append_space (by decide : isSpaceChar '\n' = true),
            hlwn]
        have hR : fields acc.cur = fields t := by
          rw [ht, fields_concat_space (by decide : isSpaceChar '\n' = true)]
        simp [wordsOfLineAcc, hL, hR]

theorem foldl_lineStep_words (cnt : List Char → Nat) (maxTok : Nat) :
    ∀ (lines : List (List Char)) (acc : LineAcc), curOK acc →
      wordsOfLineAcc (lines.foldl (lineStep cnt maxTok) acc) =
          wordsOfLineAcc acc ++ (lines.map fields).flatten ∧
        curOK (lines.foldl (lineStep cnt maxTok) acc) := by
  intro lines
  induction lines with
  | nil =>
    intro acc hok
    exact ⟨by simp, hok⟩
  | cons l ls ih =>
    intro acc hok
    obtain ⟨h1, h2⟩ := lineStep_words cnt maxTok acc l hok
    obtain ⟨ih1, ih2⟩ := ih (lineStep cnt maxTok acc l) h2
    refine ⟨?_, ih2⟩
    rw [List.foldl_cons, ih1, h1]
    simp

/-- The words of the chunker output, as a flat list, equal the words of
the input text. -/
theorem splitIntoTokenChunks_words (cnt : List Char → Nat)
    (text : List Char) (maxTok : Nat) :
    ((splitIntoTokenChunks cnt text maxTok).map fields).flatten =
      fields text := by
  obtain ⟨h1, h2⟩ := foldl_lineStep_words cnt maxTok (splitNewline text)
    ⟨[], [], 0⟩ (Or.inl rfl)
  have htext : fields text = ((splitNewline text).map fields).flatten := by
    conv_lhs => rw [← joinNewline_splitNewline text]
    exact fields_joinNewline _
  simp only [splitIntoTokenChunks]
  by_cases hcur : ((splitNewline text).foldl (lineStep cnt maxTok)
      ⟨[], [], 0⟩).cur ≠ []
  · rw [if_pos hcur]
    simp only [List.map_append, List.map_cons, List.map_nil,
      List.flatten_append, fields_trimSuffixNewline]
    have h3 := h1
    simp only [wordsOfLineAcc, fields, fieldsAux] at h3
    rw [htext]
    simpa [fields] using h3
  · rw [if_neg hcur]
    push_neg at hcur
    have h3 := h1
    simp only [wordsOfLineAcc, hcur] at h3
    rw [htext]
    simpa [fields, fieldsAux] using h3

/-- When appending the line keeps the running count within budget, the
loop body reduces to the plain append step. -/
theorem lineStep_append (cnt : List Char → Nat) (maxTok : Nat) (acc : LineAcc)
    (line : List Char)
    (h : acc.curTokens + cnt (line ++ ['\n']) ≤ maxTok) :
    lineStep cnt maxTok acc line =
      { chunks := acc.chunks
        cur := acc.cur ++ (line ++ ['\n'])
        curTokens := acc.curTokens + cnt (line ++ ['\n']) } := by
  have hcond : ¬(acc.curTokens + cnt (line ++ ['\n']) > maxTok ∧
      acc.cur ≠ []) := by
    intro hx
    exact absurd hx.1 (by omega)
  have hbig : ¬(cnt (line ++ ['\n']) > maxTok) := by omega
  simp only [lineStep, if_neg hcond, if_neg hbig]

/-! ### Budget accounting for additive counters -/

theorem addCount_append (wt : Char → Nat) (a b : List Char) :
    addCount wt (a ++ b) = addCount wt a + addCount wt b := by
  simp [addCount]

theorem addCount_sublist (wt : Char → Nat) {a b : List Char}
    (h : List.Sublist a b) : addCount wt a ≤ addCount wt b :=
  List.Sublist.sum_le_sum (h.map wt) fun x _ => Nat.zero_le x

theorem addCount_reverse (wt : Char → Nat) (l : List Char) :
    addCount wt l.reverse = addCount wt l := by
  simp [addCount, List.sum_reverse]

theorem addCount_trimSpace_le (wt : Char → Nat) (s : List Char) :
    addCount wt (trimSpace s) ≤ addCount wt s := by
  unfold trimSpace
  calc addCount wt
        ((s.dropWhile isSpaceChar).reverse.dropWhile isSpaceChar).reverse
      = addCount wt ((s.dropWhile isSpaceChar).reverse.dropWhile isSpaceChar) :=
        addCount_reverse wt _
    _ ≤ addCount wt (s.dropWhile isSpaceChar).reverse :=
        addCount_sublist wt (List.dropWhile_sublist _)
    _ = addCount wt (s.dropWhile isSpaceChar) := addCount_reverse wt _
    _ ≤ addCount wt s := addCount_sublist wt (List.dropWhile_sublist _)

theorem addCount_trimSuffixNewline_le (wt : Char → Nat) (s : List Char) :
    addCount wt (trimSuffixNewline s) ≤ addCount wt s := by
  unfold trimSuffixNewline
  by_cases h : s.getLast? = some '\n'
  · rw [if_pos h]
    exact addCount_sublist wt (List.dropLast_sublist s)
  · rw [if_neg h]

/-- Trimming a string that ends in a space removes at least that space
from its additive count. -/
theorem addCount_trimSpace_concat_space (wt : Char → Nat) (t : List Char) :
    addCount wt (trimSpace (t ++ [' '])) + wt ' ' ≤
      addCount wt (t ++ [' ']) := by
  unfold trimSpace
  by_cases hne : (t ++ [' ']).dropWhile isSpaceChar = []
  · rw [hne]
    simp [addCount_append, addCount]
  · have hlast : ((t ++ [' ']).dropWhile isSpaceChar).getLast? = some ' ' := by
      obtain ⟨pre, hpre⟩ :=
        List.dropWhile_suffix (l := t ++ [' ']) isSpaceChar
      rw [← List.getLast?_append_of_ne_nil pre hne, hpre,
        List.getLast?_concat]
    have hrev : ((t ++ [' ']).dropWhile isSpaceChar).reverse.head? =
        some ' ' := by
      rw [List.head?_reverse]
      exact hlast
    have hrv : ' '  ::  ((t ++ [' ']).dropWhile isSpaceChar).reverse.tail =
        ((t ++ [' ']).dropWhile isSpaceChar).reverse :=
      List.cons_head?_tail hrev
    calc addCount wt
          (((t ++ [' ']).dropWhile isSpaceChar).reverse.dropWhile
            isSpaceChar).reverse + wt ' '
        = addCount wt
            (((t ++ [' ']).dropWhile isSpaceChar).reverse.dropWhile
              isSpaceChar) + wt ' ' := by rw [addCount_reverse]
      _ = addCount wt
            ((' ' :: ((t ++ [' ']).dropWhile isSpaceChar).reverse.tail
              ).dropWhile isSpaceChar) + wt ' ' := by rw [hrv]
      _ = addCount wt
            (((t ++ [' ']).dropWhile isSpaceChar).reverse.tail.dropWhile
              isSpaceChar) + wt ' ' := by
            rw [List.dropWhile_cons_of_pos (by decide)]
      _ ≤ addCount wt
            ((t ++ [' ']).dropWhile isSpaceChar).reverse.tail + wt ' ' := by
            have h0 : addCount wt
                (List.dropWhile isSpaceChar
                  (((t ++ [' ']).dropWhile isSpaceChar).reverse.tail)) ≤
                addCount wt
                  (((t ++ [' ']).dropWhile isSpaceChar).reverse.tail) :=
              addCount_sublist wt (List.dropWhile_sublist isSpaceChar)
            omega
      _ = addCount wt
            (' ' :: ((t ++ [' ']).dropWhile isSpaceChar).reverse.tail) := by
            simp [addCount]
            omega
      _ = addCount wt ((t ++ [' ']).dropWhile isSpaceChar).reverse := by
            rw [hrv]
      _ = addCount wt ((t ++ [' ']).dropWhile isSpaceChar) :=
            addCount_reverse wt _
      _ ≤ addCount wt (t ++ [' ']) :=
            addCount_sublist wt (List.dropWhile_sublist _)

theorem wordStep_count (wt : Char → Nat) (maxTok : Nat) (w : WordAcc)
    (word : List Char)
    (hword : addCount wt (word ++ [' ']) ≤ maxTok)
    (hinv : wordCountInv wt maxTok w) :
    wordCountInv wt maxTok (wordStep (addCount wt) maxTok w word) := by
  obtain ⟨hchunks, htok, hbound, hok⟩ := hinv
  by_cases hcond : w.wordTokens + addCount wt (word ++ [' ']) > maxTok ∧
      w.wordChunk ≠ []
  · have hstep : wordStep (addCount wt) maxTok w word =
        { chunks := w.chunks ++ [trimSpace w.wordChunk]
          wordChunk := word ++ [' ']
          wordTokens := addCount wt (word ++ [' ']) } := by
      simp only [wordStep, if_pos hcond]
    rw [hstep]
    refine ⟨?_, rfl, fun _ => hword, Or.inr ⟨word, rfl⟩⟩
    intro ch hch
    rcases List.mem_append.mp hch with hch | hch
    · exact hchunks ch hch
    · have hch2 : ch = trimSpace w.wordChunk := by simpa using hch
      subst hch2
      calc addCount wt (trimSpace w.wordChunk)
          ≤ addCount wt w.wordChunk := addCount_trimSpace_le wt _
        _ = w.wordTokens := htok.symm
        _ ≤ maxTok := hbound hcond.2
  · have hstep : wordStep (addCount wt) maxTok w word =
        { chunks := w.chunks
          wordChunk := w.wordChunk ++ (word ++ [' '])
          wordTokens := w.wordTokens + addCount wt (word ++ [' ']) } := by
      simp only [wordStep, if_neg hcond]
    rw [hstep]
    refine ⟨hchunks, ?_, ?_, Or.inr ⟨w.wordChunk ++ word, by simp⟩⟩
    · show w.wordTokens + addCount wt (word ++ [' ']) =
        addCount wt (w.wordChunk ++ (word ++ [' ']))
      simp only [addCount_append, htok]
    · intro _
      show w.wordTokens + addCount wt (word ++ [' ']) ≤ maxTok
      by_cases hwc : w.wordChunk = []
      · have h0 : w.wordTokens = 0 := by
          rw [htok, hwc]
          simp [addCount]
        omega
      · rcases not_and_or.mp hcond with hle | hne
        · omega
        · exact absurd hwc (by simpa using hne)

theorem foldl_wordStep_count (wt : Char → Nat) (maxTok : Nat) :
    ∀ (ws : List (List Char)) (w : WordAcc),
      (∀ x ∈ ws, addCount wt (x ++ [' ']) ≤ maxTok) →
      wordCountInv wt maxTok w →
      wordCountInv wt maxTok (ws.foldl (wordStep (addCount wt) maxTok) w) := by
  intro ws
  induction ws with
  | nil => exact fun w _ hinv => hinv
  | cons x ws ih =>
    intro w hmem hinv
    exact ih (wordStep (addCount wt) maxTok w x)
      (fun y hy => hmem y (by simp [hy]))
      (wordStep_count wt maxTok w x (hmem x (by simp)) hinv)

theorem lineStep_count (wt : Char → Nat) (maxTok : Nat) (acc : LineAcc)
    (line : List Char)
    (hnl : wt '\n' ≤ wt ' ')
    (hwords : ∀ x ∈ fields line, addCount wt (x ++ [' ']) ≤ maxTok)
    (hline : fields line = [] → addCount wt (line ++ ['\n']) ≤ maxTok)
    (hinv : lineCountInv wt maxTok acc) :
    lineCountInv wt maxTok (lineStep (addCount wt) maxTok acc line) := by
  obtain ⟨hchunks, htok, hbound⟩ := hinv
  have hflush : ∀ ch ∈ acc.chunks ++ [trimSuffixNewline acc.cur],
      acc.cur ≠ [] → addCount wt ch ≤ maxTok := by
    intro ch hch hcur
    rcases List.mem_append.mp hch with hch | hch
    · exact hchunks ch hch
    · have hch2 : ch = trimSuffixNewline acc.cur := by simpa using hch
      subst hch2
      calc addCount wt (trimSuffixNewline acc.cur)
          ≤ addCount wt acc.cur := addCount_trimSuffixNewline_le wt _
        _ = acc.curTokens := htok.symm
        _ ≤ maxTok := hbound hcur
  by_cases hbig : addCount wt (line ++ ['\n']) > maxTok
  · -- the oversized-line fallback: the line has at least one word
    have hfl : fields line ≠ [] := by
      intro hfl
      exact absurd (hline hfl) (by omega)
    -- the greedy step, in both flush and append form, feeds `oversizedFix`
    -- with within-budget chunks
    have hmain : ∀ acc1 : LineAcc,
        (∀ ch ∈ acc1.chunks, addCount wt ch ≤ maxTok) →
        lineCountInv wt maxTok (oversizedFix (addCount wt) maxTok acc1 line) := by
      intro acc1 hch1
      obtain ⟨hwchunks, hwtok, hwbound, hwok⟩ :=
        foldl_wordStep_count wt maxTok (fields line)
          ⟨acc1.chunks, [], 0⟩ hwords
          ⟨hch1, by simp [addCount], by simp, Or.inl rfl⟩
      have hwne : ((fields line).foldl (wordStep (addCount wt) maxTok)
          ⟨acc1.chunks, [], 0⟩).wordChunk ≠ [] := by
        obtain ⟨t, ts, hts⟩ : ∃ t ts, fields line = t :: ts := by
          cases h : fields line with
          | nil => exact absurd h hfl
          | cons t ts => exact ⟨t, ts, rfl⟩
        rw [hts]
        exact (foldl_wordStep_words (addCount wt) maxTok (t :: ts)
          ⟨acc1.chunks, [], 0⟩
          (fun x hx => fields_mem (hts.symm ▸ hx))
          (Or.inl rfl)).2.2 (by simp)
      simp only [oversizedFix, if_pos hwne]
      rcases hwok with hnil | ⟨t, ht⟩
      · exact absurd hnil hwne
      refine ⟨hwchunks, rfl, fun _ => ?_⟩
      show addCount wt (trimSpace ((fields line).foldl
          (wordStep (addCount wt) maxTok)
          ⟨acc1.chunks, [], 0⟩).wordChunk ++ ['\n']) ≤ maxTok
      rw [addCount_append, ht]
      have h1 := addCount_trimSpace_concat_space wt t
      have h2 : addCount wt ['\n'] = wt '\n' := by simp [addCount]
      have h3 := hwbound hwne
      rw [hwtok, ht] at h3
      omega
    by_cases hc : acc.cur = []
    · have hcond : ¬(acc.curTokens + addCount wt (line ++ ['\n']) > maxTok ∧
          acc.cur ≠ []) := by simp [hc]
      have hstep : lineStep (addCount wt) maxTok acc line =
          oversizedFix (addCount wt) maxTok
            { chunks := acc.chunks
              cur := acc.cur ++ (line ++ ['\n'])
              curTokens := acc.curTokens + addCount wt (line ++ ['\n']) }
            line := by
        simp only [lineStep, if_neg hcond, if_pos hbig]
      rw [hstep]
      exact hmain _ hchunks
    · have hcond : acc.curTokens + addCount wt (line ++ ['\n']) > maxTok ∧
          acc.cur ≠ [] := ⟨by omega, hc⟩
      have hstep : lineStep (addCount wt) maxTok acc line =
          oversizedFix (addCount wt) maxTok
            { chunks := acc.chunks ++ [trimSuffixNewline acc.cur]
              cur := line ++ ['\n']
              curTokens := addCount wt (line ++ ['\n']) } line := by
        simp only [lineStep, if_pos hcond, if_pos hbig]
      rw [hstep]
      exact hmain _ fun ch hch => hflush ch hch hc
  · by_cases hcond : acc.curTokens + addCount wt (line ++ ['\n']) > maxTok ∧
        acc.cur ≠ []
    · have hstep : lineStep (addCount wt) maxTok acc line =
          { chunks := acc.chunks ++ [trimSuffixNewline acc.cur]
            cur := line ++ ['\n']
            curTokens := addCount wt (line ++ ['\n']) } := by
        simp only [lineStep, if_pos hcond, if_neg hbig]
      rw [hstep]
      refine ⟨fun ch hch => hflush ch hch hcond.2, rfl, fun _ => ?_⟩
      show addCount wt (line ++ ['\n']) ≤ maxTok
      omega
    · have hstep : lineStep (addCount wt) maxTok acc line =
          { chunks := acc.chunks
            cur := acc.cur ++ (line ++ ['\n'])
            curTokens := acc.curTokens + addCount wt (line ++ ['\n']) } := by
        simp only [lineStep, if_neg hcond, if_neg hbig]
      rw [hstep]
      refine ⟨hchunks, ?_, fun _ => ?_⟩
      · show acc.curTokens + addCount wt (line ++ ['\n']) =
          addCount wt (acc.cur ++ (line ++ ['\n']))
        simp only [addCount_append, htok]
      · show acc.curTokens + addCount wt (line ++ ['\n']) ≤ maxTok
        by_cases hc : acc.cur = []
        · have h0 : acc.curTokens = 0 := by
            rw [htok, hc]
            simp [addCount]
          omega
        · rcases not_and_or.mp hcond with hle | hne
          · omega
          · exact absurd hc (by simpa using hne)

theorem chunkOutcomes_getElem?_lt (cfg : RunConfig) (gen : Nat → GenResult)
    (fs : FS) (chunks : List (List Char)) (j : Nat)
    (hj : j < chunks.length) :
    (chunkOutcomes cfg gen fs chunks)[j]? =
      some (taskOutcome cfg gen fs chunks j) := by
  simp [chunkOutcomes, List.getElem?_map, List.getElem?_range hj]

theorem chunkOutcomes_getElem?_ge (cfg : RunConfig) (gen : Nat → GenResult)
    (fs : FS) (chunks : List (List Char)) (j : Nat)
    (hj : ¬ j < chunks.length) :
    (chunkOutcomes cfg gen fs chunks)[j]? = none := by
  rw [List.getElem?_eq_none]
  simp only [chunkOutcomes, List.length_map, List.length_range]
  omega

theorem firstError_none_iff (ocs : List ChunkOutcome) :
    firstError ocs = none ↔ ∀ oc ∈ ocs, ∃ c, oc.ret = .ok c := by
  unfold firstError
  rw [List.findSome?_eq_none_iff]
  constructor
  · intro h oc hoc
    have h2 := h oc hoc
    cases hr : oc.ret with
    | error e =>
      rw [hr] at h2
      simp at h2
    | ok c => exact ⟨c, rfl⟩
  · intro h oc hoc
    obtain ⟨c, hc⟩ := h oc hoc
    simp [hc]

theorem findSome?_append_none {α β : Type} (f : α → Option β)
    (l1 l2 : List α) (h : ∀ x ∈ l1, f x = none) :
    (l1 ++ l2).findSome? f = l2.findSome? f := by
  induction l1 with
  | nil => simp
  | cons a l ih =>
    rw [List.cons_append]
    rw [List.findSome?_cons, h a (by simp)]
    exact ih fun x hx => h x (by simp [hx])

/-- When task `k` is the only failed task, `errgroup.Wait` surfaces its
error. -/
theorem firstError_of_unique_failure (n k : Nat) (g : Nat → ChunkOutcome)
    (e : String) (hk : k < n)
    (hke : (g k).ret = .error e)
    (hothers : ∀ j < n, j ≠ k → ∃ c, (g j).ret = .ok c) :
    firstError ((List.range n).map g) = some e := by
  have h1 : List.range' k (n - k) = k :: List.range' (k + 1) (n - k - 1) := by
    have h0 : n - k = (n - k - 1) + 1 := by omega
    rw [h0, List.range'_succ]
    simp
  have h2 := List.range'_append 0 k (n - k) 1
  have h3 : 0 + 1 * k = k := by omega
  have h4 : n - k + k = n := by omega
  rw [h3, h4] at h2
  have hdecomp : List.range n =
      List.range k ++ k :: List.range' (k + 1) (n - k - 1) := by
    rw [List.range_eq_range' n, ← h2, h1, ← List.range_eq_range' k]
  unfold firstError
  rw [hdecomp, List.map_append, List.map_cons]
  rw [findSome?_append_none]
  · simp [List.findSome?_cons, hke]
  · intro x hx
    obtain ⟨j, hj, rfl⟩ := List.mem_map.mp hx
    have hjk : j < k := List.mem_range.mp hj
    obtain ⟨c, hc⟩ := hothers j (by omega) (by omega)
    simp [hc]

/-- A successful task either hit the cache (writing nothing and calling
nothing) or ran a fresh generation (writing its content exactly when the
result write was allowed). -/
theorem processChunk_ok (i : Nat) (cache : Option (List Char))
    (cwk rwk : Bool) (gen : GenResult) (chunk : List Char) (c : List Char)
    (hok : (processChunk i cache cwk rwk gen chunk).ret = .ok c) :
    (cache = some c ∧
      (processChunk i cache cwk rwk gen chunk).resultWrite = none ∧
      (processChunk i cache cwk rwk gen chunk).genCalls = 0) ∨
    (cache = none ∧
      (processChunk i cache cwk rwk gen chunk).resultWrite =
        (if rwk then some c else none)) := by
  cases cache with
  | some existing =>
    left
    have h2 : processChunk i (some existing) cwk rwk gen chunk =
        ⟨.ok existing, 0, none, none⟩ := rfl
    rw [h2] at hok
    have h3 : existing = c := by simpa using hok
    rw [h2, h3]
    exact ⟨rfl, rfl, rfl⟩
  | none =>
    right
    refine ⟨rfl, ?_⟩
    by_cases hcw : cwk
    · cases gen with
      | failure msg =>
        have h2 : processChunk i none cwk rwk (.failure msg) chunk =
            ⟨.error ("failed to generate chat completion for chunk " ++
              Nat.repr (i + 1) ++ ": " ++ msg), 1, some chunk, none⟩ := by
          simp [processChunk, hcw]
        rw [h2] at hok
        simp at hok
      | success choices =>
        cases choices with
        | nil =>
          have h2 : processChunk i none cwk rwk (.success []) chunk =
              ⟨.error ("no content in response for chunk " ++
                Nat.repr (i + 1)), 1, some chunk, none⟩ := by
            simp [processChunk, hcw]
          rw [h2] at hok
          simp at hok
        | cons content rest =>
          by_cases hc0 : content = []
          · have h2 : processChunk i none cwk rwk
                (.success (content :: rest)) chunk =
                ⟨.error ("no content in response for chunk " ++
                  Nat.repr (i + 1)), 1, some chunk, none⟩ := by
              simp [processChunk, hcw, hc0]
            rw [h2] at hok
            simp at hok
          · have h2 : processChunk i none cwk rwk
                (.success (content :: rest)) chunk =
                ⟨.ok content, 1, some chunk,
                  if rwk then some content else none⟩ := by
              simp [processChunk, hcw, hc0]
            rw [h2] at hok
            have h3 : content = c := by simpa using hok
            rw [h2, h3]
    · have h2 : processChunk i none cwk rwk gen chunk =
          ⟨.error ("failed to write chunk " ++ Nat.repr (i + 1)),
            0, none, none⟩ := by
        simp [processChunk, hcw]
      rw [h2] at hok
      simp at hok

/-- A cache hit is answered from the result file with no calls and no
writes. -/
theorem taskOutcome_cache_hit (cfg : RunConfig) (gen : Nat → GenResult)
    (fs : FS) (chunks : List (List Char)) (i : Nat) (c : List Char)
    (hc : fs.resultFile i = some c) :
    taskOutcome cfg gen fs chunks i = ⟨.ok c, 0, none, none⟩ := by
  simp [taskOutcome, hc, processChunk]

/-- Result files present before the run survive it unchanged: a task
whose slot is cached never writes to it. -/
theorem fsAfterTasks_resultFile_preserved (cfg : RunConfig)
    (gen : Nat → GenResult) (fs : FS) (chunks : List (List Char))
    (j : Nat) (c : List Char) (hj : fs.resultFile j = some c) :
    (fsAfterTasks fs (chunkOutcomes cfg gen fs chunks)).resultFile j =
      some c := by
  show (match ((chunkOutcomes cfg gen fs chunks)[j]?).bind
      ChunkOutcome.resultWrite with
    | some c => some c
    | none => fs.resultFile j) = some c
  by_cases h : j < chunks.length
  · rw [chunkOutcomes_getElem?_lt cfg gen fs chunks j h,
      taskOutcome_cache_hit cfg gen fs chunks j c hj]
    exact hj
  · rw [chunkOutcomes_getElem?_ge cfg gen fs chunks j h]
    exact hj

/-- After the run, a successful task's slot holds its Result (when result
writes are allowed). -/
theorem fsAfterTasks_resultFile_some (cfg : RunConfig)
    (gen : Nat → GenResult) (fs : FS) (chunks : List (List Char))
    (hw : ∀ i, cfg.resultWriteOk i = true) (i : Nat)
    (hi : i < chunks.length) (c : List Char)
    (hok : (taskOutcome cfg gen fs chunks i).ret = .ok c) :
    (fsAfterTasks fs (chunkOutcomes cfg gen fs chunks)).resultFile i =
      some c := by
  have hok2 : (processChunk i (fs.resultFile i) (cfg.chunkWriteOk i)
      (cfg.resultWriteOk i) (gen i) (chunks.getD i [])).ret = .ok c := hok
  show (match ((chunkOutcomes cfg gen fs chunks)[i]?).bind
      ChunkOutcome.resultWrite with
    | some c => some c
    | none => fs.resultFile i) = some c
  rw [chunkOutcomes_getElem?_lt cfg gen fs chunks i hi]
  rcases processChunk_ok i (fs.resultFile i) (cfg.chunkWriteOk i)
      (cfg.resultWriteOk i) (gen i) (chunks.getD i []) c hok2 with
    ⟨hcache, hwz, _⟩ | ⟨hcache, hwz⟩
  · have hwz2 : (taskOutcome cfg gen fs chunks i).resultWrite = none := hwz
    rw [show (some (taskOutcome cfg gen fs chunks i)).bind
        ChunkOutcome.resultWrite =
        (taskOutcome cfg gen fs chunks i).resultWrite from rfl, hwz2]
    exact hcache
  · have hwz2 : (taskOutcome cfg gen fs chunks i).resultWrite = some c := by
      rw [show (taskOutcome cfg gen fs chunks i).resultWrite =
        (processChunk i (fs.resultFile i) (cfg.chunkWriteOk i)
          (cfg.resultWriteOk i) (gen i) (chunks.getD i [])).resultWrite
        from rfl, hwz, hw i]
      simp
    rw [show (some (taskOutcome cfg gen fs chunks i)).bind
        ChunkOutcome.resultWrite =
        (taskOutcome cfg gen fs chunks i).resultWrite from rfl, hwz2]

/-- Characterization of a run that read its document, needed no
confirmation, and had a failed task. -/
theorem ProcessWithClient_error (cnt : List Char → Nat) (cfg : RunConfig)
    (gen : Nat → GenResult) (fs : FS) (text : List Char) (e : String)
    (hdoc : fs.doc = some text)
    (hconf : cfg.requireConfirmation = false)
    (hfe : firstError (chunkOutcomes cfg gen fs
      (splitIntoTokenChunks cnt text 2000)) = some e) :
    ProcessWithClient cnt cfg gen fs =
      ⟨.error ("failed to wait for all subtasks to complete: " ++ e),
        totalGenCalls (chunkOutcomes cfg gen fs
          (splitIntoTokenChunks cnt text 2000)),
        fsAfterTasks fs (chunkOutcomes cfg gen fs
          (splitIntoTokenChunks cnt text 2000))⟩ := by
  simp only [ProcessWithClient, hdoc]
  rw [if_neg (by simp [hconf])]
  simp only [hfe]

/-- Characterization of a fully successful run. -/
theorem ProcessWithClient_ok (cnt : List Char → Nat) (cfg : RunConfig)
    (gen : Nat → GenResult) (fs : FS) (text : List Char)
    (hdoc : fs.doc = some text)
    (hconf : cfg.requireConfirmation = false)
    (hfe : firstError (chunkOutcomes cfg gen fs
      (splitIntoTokenChunks cnt text 2000)) = none)
    (hcwk : cfg.combinedWriteOk = true) :
    ProcessWithClient cnt cfg gen fs =
      ⟨.ok (), totalGenCalls (chunkOutcomes cfg gen fs
          (splitIntoTokenChunks cnt text 2000)),
        { fsAfterTasks fs (chunkOutcomes cfg gen fs
            (splitIntoTokenChunks cnt text 2000)) with
          combined := some (combinedText (chunkOutcomes cfg gen fs
            (splitIntoTokenChunks cnt text 2000))) }⟩ := by
  simp only [ProcessWithClient, hdoc]
  rw [if_neg (by simp [hconf])]
  simp only [hfe, hcwk, if_true]

/-- Characterization of a run whose combined-results write failed. -/
theorem ProcessWithClient_combinedFail (cnt : List Char → Nat)
    (cfg : RunConfig) (gen : Nat → GenResult) (fs : FS) (text : List Char)
    (hdoc : fs.doc = some text)
    (hconf : cfg.requireConfirmation = false)
    (hfe : firstError (chunkOutcomes cfg gen fs
      (splitIntoTokenChunks cnt text 2000)) = none)
    (hcwk : cfg.combinedWriteOk = false) :
    ProcessWithClient cnt cfg gen fs =
      ⟨.error "failed to write combined results",
        totalGenCalls (chunkOutcomes cfg gen fs
          (splitIntoTokenChunks cnt text 2000)),
        fsAfterTasks fs (chunkOutcomes cfg gen fs
          (splitIntoTokenChunks cnt text 2000))⟩ := by
  simp only [ProcessWithClient, hdoc]
  rw [if_neg (by simp [hconf])]
  simp only [hfe, hcwk]
  rw [if_neg (by simp)]

theorem foldl_lineStep_count (wt : Char → Nat) (maxTok : Nat)
    (hnl : wt '\n' ≤ wt ' ') :
    ∀ (lines : List (List Char)) (acc : LineAcc),
      (∀ line ∈ lines, ∀ x ∈ fields line, addCount wt (x ++ [' ']) ≤ maxTok) →
      (∀ line ∈ lines, fields line = [] →
        addCount wt (line ++ ['\n']) ≤ maxTok) →
      lineCountInv wt maxTok acc →
      lineCountInv wt maxTok
        (lines.foldl (lineStep (addCount wt) maxTok) acc) := by
  intro lines
  induction lines with
  | nil => exact fun acc _ _ hinv => hinv
  | cons l ls ih =>
    intro acc hwords hlines hinv
    exact ih (lineStep (addCount wt) maxTok acc l)
      (fun line hl => hwords line (by simp [hl]))
      (fun line hl => hlines line (by simp [hl]))
      (lineStep_count wt maxTok acc l hnl
        (hwords l (by simp)) (hlines l (by simp)) hinv)

/-! ## Claims about the chunker -/

/-- C1 (content preservation): for every counting capability, every input
text and every positive chunk budget, the chunks returned by
`splitIntoTokenChunks`, rejoined in order with the line separator
(newline), carry exactly the same sequence of whitespace-delimited words
as the original input text — no word is dropped and none is duplicated. -/
theorem C1_content_preservation (cnt : List Char → Nat) (text : List Char)
    (maxTok : Nat) (_hpos : 0 < maxTok) :
    fields (joinNewline (splitIntoTokenChunks cnt text maxTok)) =
      fields text := by
  rw [fields_joinNewline]
  exact splitIntoTokenChunks_words cnt text maxTok

/-- Closed instance of C1 at a concrete input. -/
theorem C1_content_preservation_witness :
    0 < 5 ∧
      fields (joinNewline (splitIntoTokenChunks charCount
        "hello world\nthis is a chunked file\n".data 5)) =
        fields "hello world\nthis is a chunked file\n".data :=
  ⟨by decide, C1_content_preservation charCount
    "hello world\nthis is a chunked file\n".data 5 (by decide)⟩

/-- C9 (empty input): for the empty input text and any positive budget,
`splitIntoTokenChunks` returns exactly one chunk, the empty string. -/
theorem C9_empty_input_one_empty_chunk (cnt : List Char → Nat)
    (maxTok : Nat) (_hpos : 0 < maxTok) :
    splitIntoTokenChunks cnt [] maxTok = [[]] := by
  have hcond : ¬((0 : Nat) + cnt (([] : List Char) ++ ['\n']) > maxTok ∧
      ([] : List Char) ≠ []) := by simp
  have hstep : lineStep cnt maxTok ⟨[], [], 0⟩ [] =
      { chunks := []
        cur := ([] : List Char) ++ ['\n']
        curTokens := 0 + cnt (([] : List Char) ++ ['\n']) } := by
    by_cases hbig : cnt (([] : List Char) ++ ['\n']) > maxTok
    · simp only [lineStep, if_neg hcond, if_pos hbig, oversizedFix]
      simp [fields, fieldsAux]
    · simp only [lineStep, if_neg hcond, if_neg hbig]
      simp
  simp only [splitIntoTokenChunks, splitNewline, List.foldl_cons,
    List.foldl_nil, hstep]
  rw [if_pos (by simp)]
  simp [trimSuffixNewline]

/-- Closed instance of C9. -/
theorem C9_empty_input_one_empty_chunk_witness :
    0 < 1 ∧ splitIntoTokenChunks charCount [] 1 = [[]] :=
  ⟨by decide, C9_empty_input_one_empty_chunk charCount 1 (by decide)⟩

/-- C5 counterexample: for the input "a\nb\nc\n" with the per-character
counter and budget 100 — large enough to hold all lines — the chunker
returns one chunk, but that chunk is the whole input (trailing newline
kept), not the input with its trailing newline trimmed. -/
theorem C5_counterexample :
    charCount "a\n".data + charCount "b\n".data + charCount "c\n".data +
        charCount "\n".data ≤ 100 ∧
      splitIntoTokenChunks charCount "a\nb\nc\n".data 100 ≠
        ["a\nb\nc".data] ∧
      splitIntoTokenChunks charCount "a\nb\nc\n".data 100 =
        ["a\nb\nc\n".data] :=
  ⟨by decide, by decide, by decide⟩

/-- C5 amended: for the input "a\nb\nc\n" and any budget large enough to
hold all four split lines (including the empty line after the final
newline), `splitIntoTokenChunks` returns exactly one chunk, and that
chunk equals the input text itself — the trailing newline is preserved,
because the final empty line contributes one newline and the single
trailing-newline trim removes only that one. -/
theorem C5_single_chunk_scenario (cnt : List Char → Nat) (maxTok : Nat)
    (hbudget : cnt ['a', '\n'] + cnt ['b', '\n'] + cnt ['c', '\n'] +
      cnt ['\n'] ≤ maxTok) :
    splitIntoTokenChunks cnt ['a', '\n', 'b', '\n', 'c', '\n'] maxTok =
      [['a', '\n', 'b', '\n', 'c', '\n']] := by
  have hsplit : splitNewline ['a', '\n', 'b', '\n', 'c', '\n'] =
      [['a'], ['b'], ['c'], []] := by decide
  simp only [splitIntoTokenChunks, hsplit, List.foldl_cons, List.foldl_nil]
  rw [lineStep_append cnt maxTok ⟨[], [], 0⟩ ['a']
    (by simp only [List.cons_append, List.nil_append]; omega)]
  simp only [List.cons_append, List.nil_append]
  rw [lineStep_append cnt maxTok _ ['b']
    (by simp only [List.cons_append, List.nil_append]; omega)]
  simp only [List.cons_append, List.nil_append]
  rw [lineStep_append cnt maxTok _ ['c']
    (by simp only [List.cons_append, List.nil_append]; omega)]
  simp only [List.cons_append, List.nil_append]
  rw [lineStep_append cnt maxTok _ []
    (by simp only [List.cons_append, List.nil_append]; omega)]
  simp only [List.cons_append, List.nil_append, List.append_nil]
  rw [if_pos (by simp)]
  simp [trimSuffixNewline]

/-- C2 counterexample: with the per-character counter and the positive
budget 1, the input "ab" — a single word whose own token count exceeds
the budget — produces a chunk whose token count is above the budget, so
not every chunk (nor every word-split piece) satisfies the budget. -/
theorem C2_counterexample :
    0 < 1 ∧
      ∃ chunk ∈ splitIntoTokenChunks charCount "ab".data 1,
        1 < charCount chunk := by
  decide

/-- C2 amended: for an additive counting capability (a per-character
weight summed over the text, with the newline weighing no more than the
space), every chunk returned by `splitIntoTokenChunks` — including the
pieces produced by the oversized-line word-splitting fallback — has a
token count at most the budget, provided every word of the input followed
by one space fits the budget and every whitespace-only line followed by
its newline fits the budget. -/
theorem C2_budget_respect (wt : Char → Nat) (text : List Char)
    (maxTok : Nat)
    (hnl : wt '\n' ≤ wt ' ')
    (hwords : ∀ w ∈ fields text, addCount wt (w ++ [' ']) ≤ maxTok)
    (hlines : ∀ line ∈ splitNewline text, fields line = [] →
      addCount wt (line ++ ['\n']) ≤ maxTok) :
    ∀ chunk ∈ splitIntoTokenChunks (addCount wt) text maxTok,
      addCount wt chunk ≤ maxTok := by
  have hw2 : ∀ line ∈ splitNewline text, ∀ x ∈ fields line,
      addCount wt (x ++ [' ']) ≤ maxTok := by
    intro line hl x hx
    apply hwords
    have htext : fields text = ((splitNewline text).map fields).flatten := by
      conv_lhs => rw [← joinNewline_splitNewline text]
      exact fields_joinNewline _
    rw [htext]
    exact List.mem_flatten.mpr ⟨fields line, List.mem_map_of_mem _ hl, hx⟩
  obtain ⟨hchunks, htok, hbound⟩ := foldl_lineStep_count wt maxTok hnl
    (splitNewline text) ⟨[], [], 0⟩ hw2 hlines
    ⟨by simp, by simp [addCount], by simp⟩
  intro chunk hchunk
  simp only [splitIntoTokenChunks] at hchunk
  by_cases hcur : ((splitNewline text).foldl (lineStep (addCount wt) maxTok)
      ⟨[], [], 0⟩).cur ≠ []
  · rw [if_pos hcur] at hchunk
    rcases List.mem_append.mp hchunk with hch | hch
    · exact hchunks chunk hch
    · have hch2 : chunk = trimSuffixNewline ((splitNewline text).foldl
          (lineStep (addCount wt) maxTok) ⟨[], [], 0⟩).cur := by
        simpa using hch
      rw [hch2]
      calc addCount wt (trimSuffixNewline ((splitNewline text).foldl
            (lineStep (addCount wt) maxTok) ⟨[], [], 0⟩).cur)
          ≤ addCount wt ((splitNewline text).foldl
              (lineStep (addCount wt) maxTok) ⟨[], [], 0⟩).cur :=
            addCount_trimSuffixNewline_le wt _
        _ = ((splitNewline text).foldl (lineStep (addCount wt) maxTok)
              ⟨[], [], 0⟩).curTokens := htok.symm
        _ ≤ maxTok := hbound hcur
  · rw [if_neg hcur] at hchunk
    exact hchunks chunk hchunk

/-- Closed instance of the amended C2, at a text whose first line is
oversized for the budget so that the word-splitting fallback runs. -/
theorem C2_budget_respect_witness :
    ((fun _ : Char => 1) '\n' ≤ (fun _ : Char => 1) ' ') ∧
      (∀ w ∈ fields "hi there\nworld\n".data,
        addCount (fun _ => 1) (w ++ [' ']) ≤ 8) ∧
      (∀ line ∈ splitNewline "hi there\nworld\n".data, fields line = [] →
        addCount (fun _ => 1) (line ++ ['\n']) ≤ 8) ∧
      ∀ chunk ∈ splitIntoTokenChunks (addCount fun _ => 1)
          "hi there\nworld\n".data 8,
        addCount (fun _ => 1) chunk ≤ 8 :=
  ⟨by decide, by decide, by decide,
    C2_budget_respect (fun _ => 1) "hi there\nworld\n".data 8
      (by decide) (by decide) (by decide)⟩

/-! ## Claims about the orchestrator -/

/-- C6 (empty generation response is an error): for a chunk not served
from cache, if the generation response has no choices or an empty first
message content, `processChunk` returns the error
"no content in response for chunk i+1" — naming the chunk index — rather
than an empty Result, and writes no result file. -/
theorem C6_empty_response_is_error (i : Nat) (resultWriteOk : Bool)
    (choices : List (List Char)) (chunk : List Char)
    (h : choices = [] ∨ ∃ rest, choices = [] :: rest) :
    processChunk i none true resultWriteOk (.success choices) chunk =
      ⟨.error ("no content in response for chunk " ++ Nat.repr (i + 1)),
        1, some chunk, none⟩ := by
  rcases h with h | ⟨rest, h⟩ <;> subst h <;> simp [processChunk]

/-- Closed instance of C6 with an empty choices list. -/
theorem C6_empty_response_is_error_witness :
    (([] : List (List Char)) = [] ∨
        ∃ rest, ([] : List (List Char)) = [] :: rest) ∧
      processChunk 0 none true true (.success []) "x".data =
        ⟨.error ("no content in response for chunk " ++ Nat.repr 1),
          1, some "x".data, none⟩ :=
  ⟨Or.inl rfl, C6_empty_response_is_error 0 true [] "x".data (Or.inl rfl)⟩

/-- C8 (cache-write failure is non-fatal): a freshly generated nonempty
response is returned with no error even when the result-file write fails;
nothing is persisted and the failure is only logged. -/
theorem C8_cache_write_failure_nonfatal (i : Nat) (content : List Char)
    (rest : List (List Char)) (chunk : List Char) (h : content ≠ []) :
    processChunk i none true false (.success (content :: rest)) chunk =
      ⟨.ok content, 1, some chunk, none⟩ := by
  simp [processChunk, h]

/-- Closed instance of C8. -/
theorem C8_cache_write_failure_nonfatal_witness :
    "ok".data ≠ [] ∧
      processChunk 2 none true false (.success ["ok".data]) "x".data =
        ⟨.ok "ok".data, 1, some "x".data, none⟩ :=
  ⟨by decide,
    C8_cache_write_failure_nonfatal 2 "ok".data [] "x".data (by decide)⟩

/-- C10 (cached empty results bypass the empty-content check): when the
result file exists but is empty, `processChunk` returns the empty string
as the Result with no error and makes no generation call — the cache-hit
path applies no non-empty-response validation. -/
theorem C10_cached_empty_result_bypasses_check (i : Nat)
    (chunkWriteOk resultWriteOk : Bool) (gen : GenResult)
    (chunk : List Char) :
    processChunk i (some []) chunkWriteOk resultWriteOk gen chunk =
      ⟨.ok [], 0, none, none⟩ := rfl

/-- C7 (clean cancellation): when interactive confirmation is required
and the reply is non-affirmative, the run returns success (nil error),
performs no generation calls, and writes no chunk, result, or combined
file — the file system is untouched. -/
theorem C7_clean_cancellation (cnt : List Char → Nat) (cfg : RunConfig)
    (gen : Nat → GenResult) (fs : FS) (text : List Char)
    (hdoc : fs.doc = some text)
    (hreq : cfg.requireConfirmation = true)
    (hresp : affirmative cfg.userResponse = false) :
    ProcessWithClient cnt cfg gen fs = ⟨.ok (), 0, fs⟩ := by
  simp only [ProcessWithClient, hdoc]
  rw [if_pos ⟨by simp [hreq], by simp [hresp]⟩]

/-- Closed instance of C7 with the reply "no". -/
theorem C7_clean_cancellation_witness :
    (⟨some "hello".data, fun _ => none, fun _ => none, none⟩ : FS).doc =
        some "hello".data ∧
      (⟨true, "no".data, fun _ => true, fun _ => true,
        true⟩ : RunConfig).requireConfirmation = true ∧
      affirmative "no".data = false ∧
      ProcessWithClient charCount
          ⟨true, "no".data, fun _ => true, fun _ => true, true⟩
          (fun _ => .failure "boom")
          ⟨some "hello".data, fun _ => none, fun _ => none, none⟩ =
        ⟨.ok (), 0,
          ⟨some "hello".data, fun _ => none, fun _ => none, none⟩⟩ :=
  ⟨rfl, rfl, by decide,
    C7_clean_cancellation charCount
      ⟨true, "no".data, fun _ => true, fun _ => true, true⟩
      (fun _ => .failure "boom")
      ⟨some "hello".data, fun _ => none, fun _ => none, none⟩
      "hello".data rfl rfl (by decide)⟩

/-- C4 (fail-fast with no partial output): if the generation call for
one chunk fails (its slot uncached, its chunk write succeeding, the other
tasks succeeding), the whole run returns an error naming the failing
chunk by its 1-based index, the combined-results file is neither written
nor modified by the run, and result files present before the run are not
deleted or modified. -/
theorem C4_fail_fast_no_partial_output (cnt : List Char → Nat)
    (cfg : RunConfig) (gen : Nat → GenResult) (fs : FS)
    (text : List Char) (k : Nat) (msg : String)
    (hdoc : fs.doc = some text)
    (hconf : cfg.requireConfirmation = false)
    (hk : k < (splitIntoTokenChunks cnt text 2000).length)
    (hcache : fs.resultFile k = none)
    (hcw : cfg.chunkWriteOk k = true)
    (hgen : gen k = .failure msg)
    (hothers : ∀ j < (splitIntoTokenChunks cnt text 2000).length, j ≠ k →
      ∃ c, (taskOutcome cfg gen fs
        (splitIntoTokenChunks cnt text 2000) j).ret = .ok c) :
    (ProcessWithClient cnt cfg gen fs).ret =
        .error ("failed to wait for all subtasks to complete: " ++
          ("failed to generate chat completion for chunk " ++
            Nat.repr (k + 1) ++ ": " ++ msg)) ∧
      (ProcessWithClient cnt cfg gen fs).fs.combined = fs.combined ∧
      (∀ j c, fs.resultFile j = some c →
        (ProcessWithClient cnt cfg gen fs).fs.resultFile j = some c) := by
  have hke : (taskOutcome cfg gen fs
      (splitIntoTokenChunks cnt text 2000) k).ret =
      .error ("failed to generate chat completion for chunk " ++
        Nat.repr (k + 1) ++ ": " ++ msg) := by
    simp [taskOutcome, hcache, hcw, hgen, processChunk]
  have hfe : firstError (chunkOutcomes cfg gen fs
      (splitIntoTokenChunks cnt text 2000)) =
      some ("failed to generate chat completion for chunk " ++
        Nat.repr (k + 1) ++ ": " ++ msg) := by
    rw [show chunkOutcomes cfg gen fs (splitIntoTokenChunks cnt text 2000) =
        (List.range (splitIntoTokenChunks cnt text 2000).length).map
          (taskOutcome cfg gen fs (splitIntoTokenChunks cnt text 2000))
      from rfl]
    exact firstError_of_unique_failure _ k _ _ hk hke hothers
  rw [ProcessWithClient_error cnt cfg gen fs text _ hdoc hconf hfe]
  refine ⟨rfl, rfl, ?_⟩
  intro j c hj
  exact fsAfterTasks_resultFile_preserved cfg gen fs _ j c hj

/-- Closed instance of C4: one chunk, failing generation. -/
theorem C4_fail_fast_no_partial_output_witness :
    demoFS.doc = some "abc".data ∧
      0 < (splitIntoTokenChunks charCount "abc".data 2000).length ∧
      ((ProcessWithClient charCount demoCfg (fun _ => .failure "boom")
          demoFS).ret =
        .error ("failed to wait for all subtasks to complete: " ++
          ("failed to generate chat completion for chunk " ++
            Nat.repr (0 + 1) ++ ": " ++ "boom")) ∧
      (ProcessWithClient charCount demoCfg (fun _ => .failure "boom")
          demoFS).fs.combined = demoFS.combined ∧
      (∀ j c, demoFS.resultFile j = some c →
        (ProcessWithClient charCount demoCfg (fun _ => .failure "boom")
          demoFS).fs.resultFile j = some c)) :=
  ⟨rfl, by decide,
    C4_fail_fast_no_partial_output charCount demoCfg
      (fun _ => .failure "boom") demoFS "abc".data 0 "boom" rfl rfl
      (by decide) rfl rfl rfl
      (fun j hj hne => absurd
        (by
          have hlen : (splitIntoTokenChunks charCount "abc".data
              2000).length = 1 := by decide
          omega)
        hne)⟩

/-- C3 amended (idempotent resume): if a first run — proceeding without
confirmation, with result-file cache writes succeeding — completes
successfully, then a second run on the same document with the same
configuration and any generation oracle performs zero generation calls
(every chunk is answered from its result file), succeeds, and overwrites
the CombinedOutput with byte-identical content. -/
theorem C3_idempotent_resume (cnt : List Char → Nat) (cfg : RunConfig)
    (gen1 gen2 : Nat → GenResult) (fs : FS) (text : List Char)
    (hdoc : fs.doc = some text)
    (hconf : cfg.requireConfirmation = false)
    (hw : ∀ i, cfg.resultWriteOk i = true)
    (h1 : (ProcessWithClient cnt cfg gen1 fs).ret = .ok ()) :
    (ProcessWithClient cnt cfg gen2
        (ProcessWithClient cnt cfg gen1 fs).fs).genCalls = 0 ∧
      (ProcessWithClient cnt cfg gen2
        (ProcessWithClient cnt cfg gen1 fs).fs).ret = .ok () ∧
      (ProcessWithClient cnt cfg gen2
          (ProcessWithClient cnt cfg gen1 fs).fs).fs.combined =
        (ProcessWithClient cnt cfg gen1 fs).fs.combined ∧
      (ProcessWithClient cnt cfg gen1 fs).fs.combined ≠ none := by
  -- run 1 succeeded, so no task failed and the combined write was allowed
  have hfe1 : firstError (chunkOutcomes cfg gen1 fs
      (splitIntoTokenChunks cnt text 2000)) = none := by
    cases h : firstError (chunkOutcomes cfg gen1 fs
        (splitIntoTokenChunks cnt text 2000)) with
    | some e =>
      rw [ProcessWithClient_error cnt cfg gen1 fs text e hdoc hconf h] at h1
      simp at h1
    | none => rfl
  have hcwk : cfg.combinedWriteOk = true := by
    by_cases h : cfg.combinedWriteOk
    · exact h
    · rw [ProcessWithClient_combinedFail cnt cfg gen1 fs text hdoc hconf
        hfe1 (by simpa using h)] at h1
      simp at h1
  have hrun1 := ProcessWithClient_ok cnt cfg gen1 fs text hdoc hconf
    hfe1 hcwk
  -- every task of run 1 succeeded and left its Result in its slot
  have hall : ∀ j < (splitIntoTokenChunks cnt text 2000).length,
      ∃ c, (taskOutcome cfg gen1 fs
          (splitIntoTokenChunks cnt text 2000) j).ret = .ok c ∧
        (fsAfterTasks fs (chunkOutcomes cfg gen1 fs
          (splitIntoTokenChunks cnt text 2000))).resultFile j = some c := by
    intro j hj
    have hmem : taskOutcome cfg gen1 fs
        (splitIntoTokenChunks cnt text 2000) j ∈
        chunkOutcomes cfg gen1 fs (splitIntoTokenChunks cnt text 2000) := by
      simp only [chunkOutcomes]
      exact List.mem_map_of_mem _ (List.mem_range.mpr hj)
    obtain ⟨c, hc⟩ := (firstError_none_iff _).mp hfe1 _ hmem
    exact ⟨c, hc, fsAfterTasks_resultFile_some cfg gen1 fs _ hw j hj c hc⟩
  -- the state after run 1, seen through its projections
  have hdoc1 : (ProcessWithClient cnt cfg gen1 fs).fs.doc = some text := by
    rw [hrun1]
    exact hdoc
  have hres1 : ∀ j < (splitIntoTokenChunks cnt text 2000).length,
      ∃ c, (ProcessWithClient cnt cfg gen1 fs).fs.resultFile j = some c ∧
        (taskOutcome cfg gen1 fs
          (splitIntoTokenChunks cnt text 2000) j).ret = .ok c := by
    intro j hj
    obtain ⟨c, hret, hcached⟩ := hall j hj
    refine ⟨c, ?_, hret⟩
    rw [hrun1]
    exact hcached
  -- on the second run every task is a cache hit
  have htask2 : ∀ j < (splitIntoTokenChunks cnt text 2000).length,
      ∃ c, taskOutcome cfg gen2 (ProcessWithClient cnt cfg gen1 fs).fs
          (splitIntoTokenChunks cnt text 2000) j =
          ⟨.ok c, 0, none, none⟩ ∧
        (taskOutcome cfg gen1 fs
          (splitIntoTokenChunks cnt text 2000) j).ret = .ok c := by
    intro j hj
    obtain ⟨c, hcached, hret⟩ := hres1 j hj
    exact ⟨c, taskOutcome_cache_hit cfg gen2 _ _ j c hcached, hret⟩
  have hfe2 : firstError (chunkOutcomes cfg gen2
      (ProcessWithClient cnt cfg gen1 fs).fs
      (splitIntoTokenChunks cnt text 2000)) = none := by
    rw [firstError_none_iff]
    intro oc hoc
    simp only [chunkOutcomes, List.mem_map, List.mem_range] at hoc
    obtain ⟨j, hj, rfl⟩ := hoc
    obtain ⟨c, h2, _⟩ := htask2 j hj
    rw [h2]
    exact ⟨c, rfl⟩
  have hcalls2 : totalGenCalls (chunkOutcomes cfg gen2
      (ProcessWithClient cnt cfg gen1 fs).fs
      (splitIntoTokenChunks cnt text 2000)) = 0 := by
    apply List.sum_eq_zero
    intro x hx
    simp only [chunkOutcomes, List.map_map, List.mem_map,
      List.mem_range] at hx
    obtain ⟨j, hj, rfl⟩ := hx
    obtain ⟨c, h2, _⟩ := htask2 j hj
    simp [Function.comp, h2]
  have hrun2 := ProcessWithClient_ok cnt cfg gen2
    (ProcessWithClient cnt cfg gen1 fs).fs text hdoc1 hconf hfe2 hcwk
  have hct : combinedText (chunkOutcomes cfg gen2
        (ProcessWithClient cnt cfg gen1 fs).fs
        (splitIntoTokenChunks cnt text 2000)) =
      combinedText (chunkOutcomes cfg gen1 fs
        (splitIntoTokenChunks cnt text 2000)) := by
    simp only [combinedText, chunkOutcomes, List.map_map]
    congr 1
    apply List.map_congr_left
    intro j hj
    have hj2 := List.mem_range.mp hj
    obtain ⟨c, h2, hret⟩ := htask2 j hj2
    simp [Function.comp, h2, hret]
  refine ⟨?_, ?_, ?_, ?_⟩
  · rw [hrun2]
    exact hcalls2
  · rw [hrun2]
  · rw [hrun2, hct, hrun1]
  · rw [hrun1]
    simp

/-- C3 counterexample: when the result-file cache writes fail — which is
non-fatal — the first run still completes successfully, yet the second
run on the same document with the same prompt performs one generation
call, not zero. -/
theorem C3_counterexample :
    (ProcessWithClient charCount
        ⟨false, [], fun _ => true, fun _ => false, true⟩
        (fun _ => .success ["out".data]) demoFS).ret = .ok () ∧
      (ProcessWithClient charCount
        ⟨false, [], fun _ => true, fun _ => false, true⟩
        (fun _ => .success ["out".data])
        (ProcessWithClient charCount
          ⟨false, [], fun _ => true, fun _ => false, true⟩
          (fun _ => .success ["out".data]) demoFS).fs).genCalls = 1 :=
  ⟨rfl, rfl⟩

/-- Closed instance of the amended C3: a successful first run followed by
a second run with a failing generation oracle. -/
theorem C3_idempotent_resume_witness :
    (∀ i, demoCfg.resultWriteOk i = true) ∧
      (ProcessWithClient charCount demoCfg
        (fun _ => .success ["out".data]) demoFS).ret = .ok () ∧
      ((ProcessWithClient charCount demoCfg (fun _ => .failure "x")
          (ProcessWithClient charCount demoCfg
            (fun _ => .success ["out".data]) demoFS).fs).genCalls = 0 ∧
        (ProcessWithClient charCount demoCfg (fun _ => .failure "x")
          (ProcessWithClient charCount demoCfg
            (fun _ => .success ["out".data]) demoFS).fs).ret = .ok () ∧
        (ProcessWithClient charCount demoCfg (fun _ => .failure "x")
            (ProcessWithClient charCount demoCfg
              (fun _ => .success ["out".data]) demoFS).fs).fs.combined =
          (ProcessWithClient charCount demoCfg
            (fun _ => .success ["out".data]) demoFS).fs.combined ∧
        (ProcessWithClient charCount demoCfg
          (fun _ => .success ["out".data]) demoFS).fs.combined ≠ none) :=
  ⟨fun _ => rfl, rfl,
    C3_idempotent_resume charCount demoCfg (fun _ => .success ["out".data])
      (fun _ => .failure "x") demoFS "abc".data rfl rfl (fun _ => rfl) rfl⟩

/-- Closed instance of the amended C5. -/
theorem C5_single_chunk_scenario_witness :
    charCount ['a', '\n'] + charCount ['b', '\n'] + charCount ['c', '\n'] +
        charCount ['\n'] ≤ 100 ∧
      splitIntoTokenChunks charCount ['a', '\n', 'b', '\n', 'c', '\n'] 100 =
        [['a', '\n', 'b', '\n', 'c', '\n']] :=
  ⟨by decide, C5_single_chunk_scenario charCount 100 (by decide)⟩

end MapReduce
